import Mathlib

/-!
Verification of the orderbook benchmark core (C++ sources under src/cpp/src).

Shallow embedding conventions:
* `uint64_t` counters and price keys are modelled as `Nat`; the modelled
  scenarios never approach `2^64`, so wraparound is unreachable and elided.
* `double` quantities are modelled as `ℚ`. The code never performs floating
  arithmetic on quantities: it only stores them and compares them against
  the constant `1e-15` (`Qty::is_zero`), operations that are exact, so the
  rational model is faithful for every claim that mentions quantities.
* `std::map<uint64_t,double>` is modelled as a strictly-sorted association
  list `List (Nat × ℚ)`, its keys in ascending order, mirroring the ordered
  map: `rbegin` is the last element, `begin` the first.
* Mutating member functions become functions returning the new state.
-/

/-! ## types.h -/

/-- Model of `struct Price { uint64_t raw; }` from types.h. -/
structure Price where
  raw : Nat
  deriving DecidableEq, Repr

/-- Model of `struct Qty { double value; }` from types.h; the double is modelled as `ℚ`. -/
structure Qty where
  value : ℚ
  deriving DecidableEq, Repr

/-- The predicate `Qty::is_zero()`: `value <= 1e-15`. -/
def Qty.is_zero (q : Qty) : Bool := q.value ≤ 1 / 10 ^ 15

/-- Model of `struct Level { Price price; Qty qty; }` from types.h. -/
structure Level where
  price : Price
  qty : Qty
  deriving DecidableEq, Repr

/-- Model of `enum class Side { Bid, Ask }` from types.h. -/
inductive Side where
  | bid
  | ask
  deriving DecidableEq, Repr

/-- Model of `struct Update` from types.h: a tagged sum of snapshot and incremental.
The C++ struct carries all fields with a `Type` tag; the incremental fields
are unused in a snapshot and vice versa, so the sum is the faithful model. -/
inductive Update where
  | snapshot (timestamp : Nat) (bids asks : List Level)
  | incremental (timestamp : Nat) (side : Side) (level : Level)
  deriving DecidableEq, Repr

/-- The `timestamp` field of an `Update`. -/
def Update.timestamp : Update → Nat
  | .snapshot ts _ _ => ts
  | .incremental ts _ _ => ts

/-- Model of `struct BookNotification` from types.h. -/
structure BookNotification where
  update_timestamp : Nat
  engine_send_ns : Nat
  best_bid : Option Level
  best_ask : Option Level
  seq : Nat
  deriving DecidableEq, Repr

/-! ## Ordered map model (std::map<uint64_t, double>)

A strictly-sorted association list. `insertEntry` is `map[k] = v`,
`eraseEntry` is `map.erase(k)`, `List.getLast?` is `rbegin`,
`List.head?` is `begin`. -/

/-- The assignment `map[k] = v` on a sorted association list: insert or overwrite. -/
def insertEntry (k : Nat) (v : ℚ) : List (Nat × ℚ) → List (Nat × ℚ)
  | [] => [(k, v)]
  | (a, b) :: t =>
    if k < a then (k, v) :: (a, b) :: t
    else if k = a then (k, v) :: t
    else (a, b) :: insertEntry k v t

/-- The call `map.erase(k)` on a sorted association list. -/
def eraseEntry (k : Nat) : List (Nat × ℚ) → List (Nat × ℚ)
  | [] => []
  | (a, b) :: t => if k = a then t else (a, b) :: eraseEntry k t

/-- The `map.find(k)` result, as the stored value. -/
def lookupEntry (k : Nat) : List (Nat × ℚ) → Option ℚ
  | [] => none
  | (a, b) :: t => if k = a then some b else lookupEntry k t

/-- The key list of the map. -/
def keysOf (l : List (Nat × ℚ)) : List Nat := l.map Prod.fst

/-- Well-formedness of the ordered-map model: keys strictly ascending. -/
def SortedKeys (l : List (Nat × ℚ)) : Prop :=
  List.Pairwise (fun p q => p.1 < q.1) l

/-! ## orderbook.h -/

/-- The `Orderbook` state: two ordered maps, two cached bests, a counter. -/
structure Orderbook where
  bids : List (Nat × ℚ)
  asks : List (Nat × ℚ)
  cached_best_bid : Option Level
  cached_best_ask : Option Level
  seq : Nat
  deriving DecidableEq, Repr

/-- A freshly constructed `Orderbook`: empty maps, empty caches, `seq = 0`. -/
def Orderbook.init : Orderbook := ⟨[], [], none, none, 0⟩

/-- Model of `Orderbook::refresh_best_bid`: `nullopt` on an empty map, else the
entry at `rbegin` (greatest key) as a `Level`. -/
def refreshBestBid (bids : List (Nat × ℚ)) : Option Level :=
  bids.getLast?.map fun e => ⟨⟨e.1⟩, ⟨e.2⟩⟩

/-- Model of `Orderbook::refresh_best_ask`: `nullopt` on an empty map, else the
entry at `begin` (least key) as a `Level`. -/
def refreshBestAsk (asks : List (Nat × ℚ)) : Option Level :=
  asks.head?.map fun e => ⟨⟨e.1⟩, ⟨e.2⟩⟩

/-- Model of `Orderbook::apply_snapshot`: clear both maps, insert every non-zero
level, refresh both caches. -/
def Orderbook.apply_snapshot (b : Orderbook) (bids asks : List Level) : Orderbook :=
  let bm := bids.foldl
    (fun m l => if l.qty.is_zero then m else insertEntry l.price.raw l.qty.value m) []
  let am := asks.foldl
    (fun m l => if l.qty.is_zero then m else insertEntry l.price.raw l.qty.value m) []
  { b with
    bids := bm
    asks := am
    cached_best_bid := refreshBestBid bm
    cached_best_ask := refreshBestAsk am }

/-- Model of `Orderbook::apply_incremental`: per-side delete on zero quantity (with a
cache refresh only when the deleted price equals the cached best), else
insert/overwrite with the monotone cache update. -/
def Orderbook.apply_incremental (b : Orderbook) (side : Side) (level : Level) : Orderbook :=
  match side with
  | .bid =>
    if level.qty.is_zero then
      let bids := eraseEntry level.price.raw b.bids
      let cb :=
        match b.cached_best_bid with
        | some c => if c.price = level.price then refreshBestBid bids else some c
        | none => none
      { b with bids := bids, cached_best_bid := cb }
    else
      let bids := insertEntry level.price.raw level.qty.value b.bids
      let cb :=
        match b.cached_best_bid with
        | some c => if c.price.raw ≤ level.price.raw then some level else some c
        | none => some level
      { b with bids := bids, cached_best_bid := cb }
  | .ask =>
    if level.qty.is_zero then
      let asks := eraseEntry level.price.raw b.asks
      let ca :=
        match b.cached_best_ask with
        | some c => if c.price = level.price then refreshBestAsk asks else some c
        | none => none
      { b with asks := asks, cached_best_ask := ca }
    else
      let asks := insertEntry level.price.raw level.qty.value b.asks
      let ca :=
        match b.cached_best_ask with
        | some c => if level.price.raw ≤ c.price.raw then some level else some c
        | none => some level
      { b with asks := asks, cached_best_ask := ca }

/-- Model of `Orderbook::apply`: dispatch on the update type, bump `seq`, and build
the notification from the post-mutation caches. Returns the new state
together with the returned `BookNotification`. -/
def Orderbook.apply (b : Orderbook) (u : Update) (send_ns : Nat) :
    Orderbook × BookNotification :=
  let b1 :=
    match u with
    | .snapshot _ bids asks => b.apply_snapshot bids asks
    | .incremental _ side level => b.apply_incremental side level
  let b2 := { b1 with seq := b1.seq + 1 }
  (b2, ⟨u.timestamp, send_ns, b2.cached_best_bid, b2.cached_best_ask, b2.seq⟩)

/-- Run a list of `(update, send_ns)` inputs through the book, collecting the
emitted notifications in order. -/
def Orderbook.applyRun (b : Orderbook) : List (Update × Nat) → Orderbook × List BookNotification
  | [] => (b, [])
  | (u, s) :: rest =>
    let (b1, n) := b.apply u s
    let (b2, ns) := b1.applyRun rest
    (b2, n :: ns)

/-! ## spsc_queue.h

The SPSC ring modelled sequentially (single-thread interleavings): the state
a producer/consumer pair observes under the program's push-then-pop claims.
`head`, `tail` and the per-slot `seq` counters are `uint64_t`; the modelled
runs stay far below `2^64`, so wraparound is elided. Slot storage holds an
`Option` value: `none` models a destroyed/unconstructed slot. -/

/-- Model of the `SPSCQueue<T, Capacity>` state: slot `seq` numbers, slot storage, and the
producer/consumer positions. `cap` is the `Capacity` template argument. -/
structure SPSC (T : Type) where
  cap : Nat
  head : Nat
  tail : Nat
  seqs : Nat → Nat
  store : Nat → Option T

/-- The constructor `SPSCQueue()`: `slots_[i].seq = i`, positions zero. -/
def SPSC.mkInit (T : Type) (cap : Nat) : SPSC T :=
  ⟨cap, 0, 0, fun i => i, fun _ => none⟩

/-- Model of `SPSCQueue::try_push`: fail iff `slot.seq != pos`; else advance `head`,
construct the element, publish `slot.seq = pos + 1`. -/
def SPSC.try_push (q : SPSC T) (x : T) : SPSC T × Bool :=
  let pos := q.head
  let idx := pos &&& (q.cap - 1)
  if q.seqs idx = pos then
    ({ q with
        head := pos + 1
        seqs := fun i => if i = idx then pos + 1 else q.seqs i
        store := fun i => if i = idx then some x else q.store i }, true)
  else
    (q, false)

/-- Model of `SPSCQueue::try_pop`: fail iff `slot.seq != pos + 1`; else advance `tail`,
move the element out, destroy it, publish `slot.seq = pos + Capacity`. -/
def SPSC.try_pop (q : SPSC T) : SPSC T × Option T :=
  let pos := q.tail
  let idx := pos &&& (q.cap - 1)
  if q.seqs idx = pos + 1 then
    ({ q with
        tail := pos + 1
        seqs := fun i => if i = idx then pos + q.cap else q.seqs i
        store := fun i => if i = idx then none else q.store i },
     q.store idx)
  else
    (q, none)

/-- Push a list of elements in order with `try_push`, returning the final
state and the list of success flags. -/
def SPSC.pushList (q : SPSC T) : List T → SPSC T × List Bool
  | [] => (q, [])
  | x :: xs =>
    let (q1, ok) := q.try_push x
    let (q2, oks) := q1.pushList xs
    (q2, ok :: oks)

/-- Pop `n` times with `try_pop`, returning the final state and the
outcomes in order. -/
def SPSC.popN (q : SPSC T) : Nat → SPSC T × List (Option T)
  | 0 => (q, [])
  | n + 1 =>
    let (q1, o) := q.try_pop
    let (q2, os) := q1.popN n
    (q2, o :: os)

/-! ## parser.h

The ingest adapter's per-line dispatch. The claims about the parser concern
only which lines contribute an `Update` to the output vector, so the model
computes the number of updates `CsvReader::parse_line` appends for a given
line (0 or 1), mirroring the source's control flow exactly:
`parse_line` dispatches on the first character; `parse_snapshot` splits the
line into comma-separated fields while respecting double quotes and bails
before pushing when fewer than 7 fields result; `parse_incremental` walks
the fields with no count check and always pushes the update it built. -/

/-- The quote-respecting field split of `CsvReader::parse_snapshot`: commas
inside double quotes do not separate fields; the final segment is a field. -/
def splitFieldsQuoted (line : List Char) : List (List Char) :=
  go line false [] []
where
  /-- Here `cur` is the current field (reversed), `acc` the completed fields
  (in reverse order); the end of the line completes the final field. -/
  go : List Char → Bool → List Char → List (List Char) → List (List Char)
    | [], _, cur, acc => (cur.reverse :: acc).reverse
    | c :: rest, inq, cur, acc =>
      let inq1 := if c = '"' then !inq else inq
      if c = ',' ∧ inq1 = false then go rest inq1 [] (cur.reverse :: acc)
      else go rest inq1 (c :: cur) acc

/-- Number of `Update`s `CsvReader::parse_line` appends for one line
(header stripped, trailing CR removed, empty lines skipped by the caller):
a snapshot line is dropped when its quote-aware field count is below 7,
an incremental line is always pushed, any other line is skipped. -/
def parseLineEmits (line : List Char) : Nat :=
  match line with
  | [] => 0
  | c :: _ =>
    if c = 's' then
      if (splitFieldsQuoted line).length < 7 then 0 else 1
    else if c = 'i' then 1
    else 0

/-! ## strategy.h -/

/-- Model of `struct StrategyStats` from strategy.h; latencies as recorded samples. -/
structure StrategyStats where
  count : Nat
  total_latency_ns : Nat
  min_latency_ns : Nat
  max_latency_ns : Nat
  latencies : List Nat
  deriving DecidableEq, Repr

/-- A freshly constructed `StrategyStats`: zero counters, empty samples,
`min` at `UINT64_MAX`. -/
def StrategyStats.mkInit : StrategyStats :=
  ⟨0, 0, 2 ^ 64 - 1, 0, []⟩

/-- Model of `StrategyStats::avg_ns`: `count > 0 ? total / count : 0`. -/
def StrategyStats.avg_ns (s : StrategyStats) : Nat :=
  if s.count > 0 then s.total_latency_ns / s.count else 0

/-- Model of `StrategyStats::percentile(p)`: 0 on no samples, otherwise the sorted
sample at index `(p/100) * (n-1)` truncated to an integer and clamped to
the last index. The `double` argument is modelled as `ℚ`; the
float-to-size_t cast is modelled as `Int.toNat ∘ Rat.floor`, which agrees
with truncation on the non-negative arguments the program uses. -/
def StrategyStats.percentile (s : StrategyStats) (p : ℚ) : Nat :=
  if s.latencies = [] then 0
  else
    let sorted := s.latencies.mergeSort (fun a b => a ≤ b)
    let n := sorted.length
    let idx := (p / 100 * ((n : ℚ) - 1)).floor.toNat
    sorted.getD (min idx (n - 1)) 0

/-- Model of `StrategyStats::median`: `percentile(50)`. -/
def StrategyStats.median (s : StrategyStats) : Nat :=
  s.percentile 50

/-! ## Ordered-map lemmas -/

theorem mem_insertEntry {k : Nat} {v : ℚ} {l : List (Nat × ℚ)} {x : Nat × ℚ}
    (h : x ∈ insertEntry k v l) : x ∈ l ∨ x = (k, v) := by
  induction l with
  | nil => simpa [insertEntry] using h
  | cons hd t ih =>
    obtain ⟨a, b⟩ := hd
    simp only [insertEntry] at h
    split at h
    · rcases List.mem_cons.mp h with h | h
      · exact Or.inr h
      · exact Or.inl h
    · split at h
      · rcases List.mem_cons.mp h with h | h
        · exact Or.inr h
        · exact Or.inl (List.mem_cons_of_mem _ h)
      · rcases List.mem_cons.mp h with h | h
        · exact Or.inl (h ▸ List.mem_cons_self _ _)
        · rcases ih h with h | h
          · exact Or.inl (List.mem_cons_of_mem _ h)
          · exact Or.inr h

theorem insertEntry_sorted {k : Nat} {v : ℚ} {l : List (Nat × ℚ)}
    (h : SortedKeys l) : SortedKeys (insertEntry k v l) := by
  induction l with
  | nil => simp [insertEntry, SortedKeys]
  | cons hd t ih =>
    obtain ⟨a, b⟩ := hd
    rw [SortedKeys, List.pairwise_cons] at h
    obtain ⟨ha, ht⟩ := h
    simp only [insertEntry]
    split
    case isTrue hk =>
      rw [SortedKeys, List.pairwise_cons]
      refine ⟨?_, List.pairwise_cons.mpr ⟨ha, ht⟩⟩
      intro x hx
      rcases List.mem_cons.mp hx with hx | hx
      · simpa [hx] using hk
      · exact lt_trans hk (ha x hx)
    case isFalse hk1 =>
      split
      case isTrue hk2 =>
        rw [SortedKeys, List.pairwise_cons]
        exact ⟨fun x hx => hk2 ▸ ha x hx, ht⟩
      case isFalse hk2 =>
        have hak : a < k := by omega
        rw [SortedKeys, List.pairwise_cons]
        refine ⟨?_, ih ht⟩
        intro x hx
        rcases mem_insertEntry hx with hx | hx
        · exact ha x hx
        · simpa [hx] using hak

theorem eraseEntry_sublist (k : Nat) (l : List (Nat × ℚ)) :
    List.Sublist (eraseEntry k l) l := by
  induction l with
  | nil => simp [eraseEntry]
  | cons hd t ih =>
    obtain ⟨a, b⟩ := hd
    simp only [eraseEntry]
    split
    · exact List.sublist_cons_self _ _
    · exact List.Sublist.cons₂ _ ih

theorem eraseEntry_sorted {k : Nat} {l : List (Nat × ℚ)}
    (h : SortedKeys l) : SortedKeys (eraseEntry k l) :=
  List.Pairwise.sublist (eraseEntry_sublist k l) h

theorem insertEntry_ne_nil (k : Nat) (v : ℚ) (l : List (Nat × ℚ)) :
    insertEntry k v l ≠ [] := by
  cases l with
  | nil => simp [insertEntry]
  | cons hd t =>
    obtain ⟨a, b⟩ := hd
    simp only [insertEntry]
    split
    · simp
    · split <;> simp

theorem getLast?_cons_of_ne_nil {α : Type} {x : α} {l : List α} (h : l ≠ []) :
    (x :: l).getLast? = l.getLast? := by
  cases l with
  | nil => exact absurd rfl h
  | cons y t => exact List.getLast?_cons_cons

theorem le_getLast_of_sorted {a : Nat} {b : ℚ} {t : List (Nat × ℚ)} {m : Nat} {w : ℚ}
    (h : SortedKeys ((a, b) :: t)) (hl : ((a, b) :: t).getLast? = some (m, w)) :
    a ≤ m := by
  cases t with
  | nil =>
    simp only [List.getLast?_singleton, Option.some.injEq, Prod.mk.injEq] at hl
    omega
  | cons c t' =>
    rw [List.getLast?_cons_cons] at hl
    have hmem : (m, w) ∈ c :: t' := List.mem_of_getLast?_eq_some hl
    have := (List.pairwise_cons.mp h).1 _ hmem
    exact le_of_lt this

theorem getLast?_insertEntry_of_nil (k : Nat) (v : ℚ) :
    (insertEntry k v []).getLast? = some (k, v) := rfl

theorem getLast?_insertEntry_of_le {k : Nat} {v : ℚ} {l : List (Nat × ℚ)} {m : Nat} {w : ℚ}
    (hs : SortedKeys l) (hl : l.getLast? = some (m, w)) (hmk : m ≤ k) :
    (insertEntry k v l).getLast? = some (k, v) := by
  induction l with
  | nil => simp at hl
  | cons hd t ih =>
    obtain ⟨a, b⟩ := hd
    have ham : a ≤ m := le_getLast_of_sorted hs hl
    simp only [insertEntry]
    split
    case isTrue hk => omega
    case isFalse hk1 =>
      split
      case isTrue hk2 =>
        cases t with
        | nil =>
          simp only [List.getLast?_singleton, Option.some.injEq, Prod.mk.injEq] at hl
          simp
        | cons c t' =>
          rw [List.getLast?_cons_cons] at hl
          have := (List.pairwise_cons.mp hs).1 _ (List.mem_of_getLast?_eq_some hl)
          omega
      case isFalse hk2 =>
        cases t with
        | nil =>
          simp only [List.getLast?_singleton, Option.some.injEq, Prod.mk.injEq] at hl
          simp [insertEntry]
        | cons c t' =>
          rw [List.getLast?_cons_cons] at hl
          rw [getLast?_cons_of_ne_nil (insertEntry_ne_nil _ _ _)]
          exact ih (List.pairwise_cons.mp hs).2 hl

theorem getLast?_insertEntry_of_lt {k : Nat} {v : ℚ} {l : List (Nat × ℚ)} {m : Nat} {w : ℚ}
    (hs : SortedKeys l) (hl : l.getLast? = some (m, w)) (hkm : k < m) :
    (insertEntry k v l).getLast? = some (m, w) := by
  induction l with
  | nil => simp at hl
  | cons hd t ih =>
    obtain ⟨a, b⟩ := hd
    simp only [insertEntry]
    split
    case isTrue hk =>
      rw [List.getLast?_cons_cons]
      exact hl
    case isFalse hk1 =>
      split
      case isTrue hk2 =>
        cases t with
        | nil =>
          simp only [List.getLast?_singleton, Option.some.injEq, Prod.mk.injEq] at hl
          omega
        | cons c t' =>
          rw [List.getLast?_cons_cons] at hl
          rw [List.getLast?_cons_cons]
          exact hl
      case isFalse hk2 =>
        cases t with
        | nil =>
          simp only [List.getLast?_singleton, Option.some.injEq, Prod.mk.injEq] at hl
          omega
        | cons c t' =>
          rw [List.getLast?_cons_cons] at hl
          rw [getLast?_cons_of_ne_nil (insertEntry_ne_nil _ _ _)]
          exact ih (List.pairwise_cons.mp hs).2 hl

theorem eraseEntry_of_not_mem {k : Nat} {l : List (Nat × ℚ)}
    (h : k ∉ keysOf l) : eraseEntry k l = l := by
  induction l with
  | nil => rfl
  | cons hd t ih =>
    obtain ⟨a, b⟩ := hd
    simp only [keysOf, List.map_cons, List.mem_cons] at h
    push_neg at h
    simp only [eraseEntry, if_neg h.1]
    rw [ih]
    intro hm
    exact h.2 hm

theorem getLast?_eraseEntry {k : Nat} {l : List (Nat × ℚ)} {m : Nat} {w : ℚ}
    (hs : SortedKeys l) (hl : l.getLast? = some (m, w)) (hne : k ≠ m) :
    (eraseEntry k l).getLast? = some (m, w) := by
  induction l with
  | nil => simp at hl
  | cons hd t ih =>
    obtain ⟨a, b⟩ := hd
    simp only [eraseEntry]
    split
    case isTrue hk =>
      cases t with
      | nil =>
        simp only [List.getLast?_singleton, Option.some.injEq, Prod.mk.injEq] at hl
        omega
      | cons c t' =>
        rw [List.getLast?_cons_cons] at hl
        exact hl
    case isFalse hk =>
      cases t with
      | nil =>
        simp only [List.getLast?_singleton, Option.some.injEq, Prod.mk.injEq] at hl
        obtain ⟨h1, h2⟩ := hl
        subst h1; subst h2
        simp [eraseEntry]
      | cons c t' =>
        rw [List.getLast?_cons_cons] at hl
        have htail := ih (List.pairwise_cons.mp hs).2 hl
        rw [getLast?_cons_of_ne_nil, htail]
        intro hnil
        rw [hnil] at htail
        simp at htail

theorem head?_insertEntry_of_nil (k : Nat) (v : ℚ) :
    (insertEntry k v []).head? = some (k, v) := rfl

theorem head?_insertEntry_of_le {k : Nat} {v : ℚ} {l : List (Nat × ℚ)} {a : Nat} {b : ℚ}
    (hl : l.head? = some (a, b)) (hka : k ≤ a) :
    (insertEntry k v l).head? = some (k, v) := by
  cases l with
  | nil => simp at hl
  | cons hd t =>
    obtain ⟨a1, b1⟩ := hd
    simp only [List.head?_cons, Option.some.injEq, Prod.mk.injEq] at hl
    obtain ⟨ha, hb⟩ := hl
    subst ha
    simp only [insertEntry]
    split
    · simp
    · split
      · simp
      · omega

theorem head?_insertEntry_of_lt {k : Nat} {v : ℚ} {l : List (Nat × ℚ)} {a : Nat} {b : ℚ}
    (hl : l.head? = some (a, b)) (hak : a < k) :
    (insertEntry k v l).head? = some (a, b) := by
  cases l with
  | nil => simp at hl
  | cons hd t =>
    obtain ⟨a1, b1⟩ := hd
    simp only [List.head?_cons, Option.some.injEq, Prod.mk.injEq] at hl
    obtain ⟨ha, hb⟩ := hl
    subst ha; subst hb
    simp only [insertEntry]
    split
    · omega
    · split
      · omega
      · simp

theorem head?_eraseEntry {k : Nat} {l : List (Nat × ℚ)} {a : Nat} {b : ℚ}
    (hl : l.head? = some (a, b)) (hne : k ≠ a) :
    (eraseEntry k l).head? = some (a, b) := by
  cases l with
  | nil => simp at hl
  | cons hd t =>
    obtain ⟨a1, b1⟩ := hd
    simp only [List.head?_cons, Option.some.injEq, Prod.mk.injEq] at hl
    obtain ⟨ha, hb⟩ := hl
    subst ha; subst hb
    simp [eraseEntry, if_neg hne]

theorem lookupEntry_getLast {l : List (Nat × ℚ)} {m : Nat} {w : ℚ}
    (hs : SortedKeys l) (hl : l.getLast? = some (m, w)) :
    lookupEntry m l = some w := by
  induction l with
  | nil => simp at hl
  | cons hd t ih =>
    obtain ⟨a, b⟩ := hd
    cases t with
    | nil =>
      simp only [List.getLast?_singleton, Option.some.injEq, Prod.mk.injEq] at hl
      obtain ⟨h1, h2⟩ := hl
      subst h1; subst h2
      simp [lookupEntry]
    | cons c t' =>
      rw [List.getLast?_cons_cons] at hl
      have hlt : a < m :=
        (List.pairwise_cons.mp hs).1 _ (List.mem_of_getLast?_eq_some hl)
      have hne : m ≠ a := by omega
      simp only [lookupEntry, if_neg hne]
      exact ih (List.pairwise_cons.mp hs).2 hl

theorem lookupEntry_head {l : List (Nat × ℚ)} {a : Nat} {b : ℚ}
    (hl : l.head? = some (a, b)) : lookupEntry a l = some b := by
  cases l with
  | nil => simp at hl
  | cons hd t =>
    obtain ⟨a1, b1⟩ := hd
    simp only [List.head?_cons, Option.some.injEq, Prod.mk.injEq] at hl
    obtain ⟨h1, h2⟩ := hl
    subst h1; subst h2
    simp [lookupEntry]

theorem keys_le_getLast {l : List (Nat × ℚ)} {m : Nat} {w : ℚ}
    (hs : SortedKeys l) (hl : l.getLast? = some (m, w)) :
    ∀ p ∈ keysOf l, p ≤ m := by
  induction l with
  | nil => simp at hl
  | cons hd t ih =>
    obtain ⟨a, b⟩ := hd
    intro p hp
    simp only [keysOf, List.map_cons, List.mem_cons] at hp
    cases t with
    | nil =>
      simp only [List.getLast?_singleton, Option.some.injEq, Prod.mk.injEq] at hl
      rcases hp with hp | hp
      · omega
      · simp at hp
    | cons c t' =>
      rw [List.getLast?_cons_cons] at hl
      have hlt : a < m :=
        (List.pairwise_cons.mp hs).1 _ (List.mem_of_getLast?_eq_some hl)
      rcases hp with hp | hp
      · omega
      · exact ih (List.pairwise_cons.mp hs).2 hl p hp

theorem head_le_keys {l : List (Nat × ℚ)} {a : Nat} {b : ℚ}
    (hs : SortedKeys l) (hl : l.head? = some (a, b)) :
    ∀ p ∈ keysOf l, a ≤ p := by
  cases l with
  | nil => simp at hl
  | cons hd t =>
    obtain ⟨a1, b1⟩ := hd
    simp only [List.head?_cons, Option.some.injEq, Prod.mk.injEq] at hl
    obtain ⟨h1, h2⟩ := hl
    subst h1; subst h2
    intro p hp
    simp only [keysOf, List.map_cons, List.mem_cons] at hp
    rcases hp with hp | hp
    · omega
    · obtain ⟨x, hx, hxp⟩ := List.mem_map.mp hp
      have := (List.pairwise_cons.mp hs).1 x hx
      omega

theorem mem_keys_of_lookupEntry {k : Nat} {v : ℚ} {l : List (Nat × ℚ)}
    (h : lookupEntry k l = some v) : k ∈ keysOf l := by
  induction l with
  | nil => simp [lookupEntry] at h
  | cons hd t ih =>
    obtain ⟨a, b⟩ := hd
    simp only [lookupEntry] at h
    simp only [keysOf, List.map_cons, List.mem_cons]
    split at h
    · left; assumption
    · right; exact ih h

/-! ## Orderbook invariant -/

/-- Internal invariant: both maps are well-formed sorted lists and each
cache equals the extremum scan of its map. -/
def Orderbook.Inv (b : Orderbook) : Prop :=
  SortedKeys b.bids ∧ SortedKeys b.asks ∧
  b.cached_best_bid = refreshBestBid b.bids ∧
  b.cached_best_ask = refreshBestAsk b.asks

theorem foldl_insert_sorted (ls : List Level) (m : List (Nat × ℚ)) (hm : SortedKeys m) :
    SortedKeys (ls.foldl
      (fun m l => if l.qty.is_zero then m else insertEntry l.price.raw l.qty.value m) m) := by
  induction ls generalizing m with
  | nil => exact hm
  | cons l ls ih =>
    simp only [List.foldl_cons]
    apply ih
    split
    · exact hm
    · exact insertEntry_sorted hm

theorem Orderbook.apply_snapshot_Inv (b : Orderbook) (bids asks : List Level) :
    (b.apply_snapshot bids asks).Inv := by
  refine ⟨?_, ?_, rfl, rfl⟩ <;>
    exact foldl_insert_sorted _ _ (by simp [SortedKeys])

theorem apply_incremental_bid_zero {b : Orderbook} {level : Level}
    (hz : level.qty.is_zero = true) :
    b.apply_incremental .bid level =
      { b with
        bids := eraseEntry level.price.raw b.bids
        cached_best_bid :=
          match b.cached_best_bid with
          | some c =>
            if c.price = level.price
            then refreshBestBid (eraseEntry level.price.raw b.bids)
            else some c
          | none => none } := by
  unfold Orderbook.apply_incremental
  rw [if_pos hz]

theorem apply_incremental_bid_insert {b : Orderbook} {level : Level}
    (hz : level.qty.is_zero = false) :
    b.apply_incremental .bid level =
      { b with
        bids := insertEntry level.price.raw level.qty.value b.bids
        cached_best_bid :=
          match b.cached_best_bid with
          | some c =>
            if c.price.raw ≤ level.price.raw then some level else some c
          | none => some level } := by
  unfold Orderbook.apply_incremental
  rw [if_neg (by simp [hz])]

theorem apply_incremental_ask_zero {b : Orderbook} {level : Level}
    (hz : level.qty.is_zero = true) :
    b.apply_incremental .ask level =
      { b with
        asks := eraseEntry level.price.raw b.asks
        cached_best_ask :=
          match b.cached_best_ask with
          | some c =>
            if c.price = level.price
            then refreshBestAsk (eraseEntry level.price.raw b.asks)
            else some c
          | none => none } := by
  show (if level.qty.is_zero = true then _ else _) = _
  rw [if_pos hz]

theorem apply_incremental_ask_insert {b : Orderbook} {level : Level}
    (hz : level.qty.is_zero = false) :
    b.apply_incremental .ask level =
      { b with
        asks := insertEntry level.price.raw level.qty.value b.asks
        cached_best_ask :=
          match b.cached_best_ask with
          | some c =>
            if level.price.raw ≤ c.price.raw then some level else some c
          | none => some level } := by
  show (if level.qty.is_zero = true then _ else _) = _
  rw [if_neg (by simp [hz])]

theorem Orderbook.apply_incremental_Inv {b : Orderbook} (hb : b.Inv)
    (side : Side) (level : Level) : (b.apply_incremental side level).Inv := by
  obtain ⟨hsb, hsa, hcb, hca⟩ := hb
  obtain ⟨⟨p⟩, ⟨v⟩⟩ := level
  cases side with
  | bid =>
    cases hz : Qty.is_zero ⟨v⟩ with
    | true =>
      rw [apply_incremental_bid_zero hz]
      rcases hE : b.cached_best_bid with _ | c
      · rw [hE] at hcb
        have hnil : b.bids = [] := by
          unfold refreshBestBid at hcb
          cases h : b.bids.getLast? with
          | none => exact List.getLast?_eq_none_iff.mp h
          | some e => rw [h] at hcb; simp at hcb
        exact ⟨by simp [hnil, eraseEntry, SortedKeys], hsa,
          by simp [hnil, eraseEntry, refreshBestBid], hca⟩
      · rw [hE] at hcb
        unfold refreshBestBid at hcb
        obtain ⟨⟨m, w⟩, he, hfe⟩ := Option.map_eq_some'.mp hcb.symm
        refine ⟨eraseEntry_sorted hsb, hsa, ?_, hca⟩
        by_cases hpe : c.price = Price.mk p
        · simp [hpe, refreshBestBid]
        · simp only [if_neg hpe]
          have hne : p ≠ m := by
            intro h
            apply hpe
            subst h
            rw [← hfe]
          unfold refreshBestBid
          rw [getLast?_eraseEntry hsb he (by omega)]
          simp [hfe]
    | false =>
      rw [apply_incremental_bid_insert hz]
      rcases hE : b.cached_best_bid with _ | c
      · rw [hE] at hcb
        have hnil : b.bids = [] := by
          unfold refreshBestBid at hcb
          cases h : b.bids.getLast? with
          | none => exact List.getLast?_eq_none_iff.mp h
          | some e => rw [h] at hcb; simp at hcb
        exact ⟨insertEntry_sorted hsb, hsa,
          by simp [hnil, insertEntry, refreshBestBid], hca⟩
      · rw [hE] at hcb
        unfold refreshBestBid at hcb
        obtain ⟨⟨m, w⟩, he, hfe⟩ := Option.map_eq_some'.mp hcb.symm
        have hcraw : c.price.raw = m := by rw [← hfe]
        refine ⟨insertEntry_sorted hsb, hsa, ?_, hca⟩
        by_cases hle : c.price.raw ≤ p
        · simp only [if_pos hle]
          unfold refreshBestBid
          rw [getLast?_insertEntry_of_le hsb he (by omega)]
          simp
        · simp only [if_neg hle]
          unfold refreshBestBid
          rw [getLast?_insertEntry_of_lt hsb he (by omega)]
          simp [hfe]
  | ask =>
    cases hz : Qty.is_zero ⟨v⟩ with
    | true =>
      rw [apply_incremental_ask_zero hz]
      rcases hE : b.cached_best_ask with _ | c
      · rw [hE] at hca
        have hnil : b.asks = [] := by
          unfold refreshBestAsk at hca
          cases h : b.asks.head? with
          | none => exact List.head?_eq_none_iff.mp h
          | some e => rw [h] at hca; simp at hca
        exact ⟨hsb, by simp [hnil, eraseEntry, SortedKeys], hcb,
          by simp [hnil, eraseEntry, refreshBestAsk]⟩
      · rw [hE] at hca
        unfold refreshBestAsk at hca
        obtain ⟨⟨m, w⟩, he, hfe⟩ := Option.map_eq_some'.mp hca.symm
        refine ⟨hsb, eraseEntry_sorted hsa, hcb, ?_⟩
        by_cases hpe : c.price = Price.mk p
        · simp [hpe, refreshBestAsk]
        · simp only [if_neg hpe]
          have hne : p ≠ m := by
            intro h
            apply hpe
            subst h
            rw [← hfe]
          unfold refreshBestAsk
          rw [head?_eraseEntry he (by omega)]
          simp [hfe]
    | false =>
      rw [apply_incremental_ask_insert hz]
      rcases hE : b.cached_best_ask with _ | c
      · rw [hE] at hca
        have hnil : b.asks = [] := by
          unfold refreshBestAsk at hca
          cases h : b.asks.head? with
          | none => exact List.head?_eq_none_iff.mp h
          | some e => rw [h] at hca; simp at hca
        exact ⟨hsb, insertEntry_sorted hsa, hcb,
          by simp [hnil, insertEntry, refreshBestAsk]⟩
      · rw [hE] at hca
        unfold refreshBestAsk at hca
        obtain ⟨⟨m, w⟩, he, hfe⟩ := Option.map_eq_some'.mp hca.symm
        have hcraw : c.price.raw = m := by rw [← hfe]
        refine ⟨hsb, insertEntry_sorted hsa, hcb, ?_⟩
        by_cases hle : p ≤ c.price.raw
        · simp only [if_pos hle]
          unfold refreshBestAsk
          rw [head?_insertEntry_of_le he (by omega)]
          simp
        · simp only [if_neg hle]
          unfold refreshBestAsk
          rw [head?_insertEntry_of_lt he (by omega)]
          simp [hfe]

theorem Orderbook.apply_fst (b : Orderbook) (u : Update) (s : Nat) :
    (b.apply u s).1 =
      { (match u with
         | .snapshot _ bids asks => b.apply_snapshot bids asks
         | .incremental _ side level => b.apply_incremental side level) with
        seq := (match u with
                | .snapshot _ bids asks => b.apply_snapshot bids asks
                | .incremental _ side level => b.apply_incremental side level).seq + 1 } := rfl

theorem Orderbook.Inv_seq {b : Orderbook} (hb : b.Inv) (n : Nat) :
    Orderbook.Inv { b with seq := n } := hb

theorem Orderbook.apply_Inv {b : Orderbook} (hb : b.Inv) (u : Update) (s : Nat) :
    (b.apply u s).1.Inv := by
  rw [Orderbook.apply_fst]
  apply Orderbook.Inv_seq
  cases u with
  | snapshot ts bids asks => exact b.apply_snapshot_Inv bids asks
  | incremental ts side level => exact Orderbook.apply_incremental_Inv hb side level

theorem Orderbook.init_Inv : Orderbook.init.Inv := by
  refine ⟨?_, ?_, rfl, rfl⟩ <;> simp [Orderbook.init, SortedKeys]

/-- The cache-consistency property as the specification states it: a cache is
empty iff its map is, and a populated cache carries the extremal key of its
map together with the quantity stored there. -/
def Orderbook.CacheConsistent (b : Orderbook) : Prop :=
  (b.cached_best_bid = none ↔ b.bids = []) ∧
  (∀ lv : Level, b.cached_best_bid = some lv →
    lookupEntry lv.price.raw b.bids = some lv.qty.value ∧
    ∀ p ∈ keysOf b.bids, p ≤ lv.price.raw) ∧
  (b.cached_best_ask = none ↔ b.asks = []) ∧
  (∀ lv : Level, b.cached_best_ask = some lv →
    lookupEntry lv.price.raw b.asks = some lv.qty.value ∧
    ∀ p ∈ keysOf b.asks, lv.price.raw ≤ p)

theorem Orderbook.Inv.cacheConsistent {b : Orderbook} (hb : b.Inv) :
    b.CacheConsistent := by
  obtain ⟨hsb, hsa, hcb, hca⟩ := hb
  refine ⟨?_, ?_, ?_, ?_⟩
  · rw [hcb]
    unfold refreshBestBid
    rw [Option.map_eq_none', List.getLast?_eq_none_iff]
  · intro lv hlv
    rw [hcb] at hlv
    unfold refreshBestBid at hlv
    obtain ⟨⟨m, w⟩, he, hfe⟩ := Option.map_eq_some'.mp hlv
    have hpr : lv.price.raw = m := by rw [← hfe]
    have hqv : lv.qty.value = w := by rw [← hfe]
    rw [hpr, hqv]
    exact ⟨lookupEntry_getLast hsb he, keys_le_getLast hsb he⟩
  · rw [hca]
    unfold refreshBestAsk
    rw [Option.map_eq_none', List.head?_eq_none_iff]
  · intro lv hlv
    rw [hca] at hlv
    unfold refreshBestAsk at hlv
    obtain ⟨⟨m, w⟩, he, hfe⟩ := Option.map_eq_some'.mp hlv
    have hpr : lv.price.raw = m := by rw [← hfe]
    have hqv : lv.qty.value = w := by rw [← hfe]
    rw [hpr, hqv]
    exact ⟨lookupEntry_head he, head_le_keys hsa he⟩

theorem Orderbook.applyRun_Inv {b : Orderbook} (hb : b.Inv)
    (inputs : List (Update × Nat)) : (b.applyRun inputs).1.Inv := by
  induction inputs generalizing b with
  | nil => exact hb
  | cons x rest ih =>
    obtain ⟨u, s⟩ := x
    exact ih (Orderbook.apply_Inv hb u s)

theorem Orderbook.apply_incremental_seq (b : Orderbook) (side : Side) (level : Level) :
    (b.apply_incremental side level).seq = b.seq := by
  cases side <;> simp only [Orderbook.apply_incremental] <;> split <;> rfl

theorem Orderbook.apply_seq (b : Orderbook) (u : Update) (s : Nat) :
    (b.apply u s).1.seq = b.seq + 1 := by
  cases u with
  | snapshot ts bids asks => rfl
  | incremental ts side level =>
    show (b.apply_incremental side level).seq + 1 = b.seq + 1
    rw [Orderbook.apply_incremental_seq]

theorem Orderbook.apply_notif_seq (b : Orderbook) (u : Update) (s : Nat) :
    (b.apply u s).2.seq = b.seq + 1 := Orderbook.apply_seq b u s

theorem Orderbook.applyRun_seqs (b : Orderbook) (inputs : List (Update × Nat)) :
    ((b.applyRun inputs).2.map BookNotification.seq)
      = List.range' (b.seq + 1) inputs.length := by
  induction inputs generalizing b with
  | nil => rfl
  | cons x rest ih =>
    obtain ⟨u, s⟩ := x
    show ((b.apply u s).2.seq
        :: ((b.apply u s).1.applyRun rest).2.map BookNotification.seq)
      = List.range' (b.seq + 1) (rest.length + 1)
    rw [List.range'_succ, Orderbook.apply_notif_seq, ih, Orderbook.apply_seq]

/-- Which side's map an incremental update targets. -/
def Orderbook.sideLevels (b : Orderbook) : Side → List (Nat × ℚ)
  | .bid => b.bids
  | .ask => b.asks

/-! ## Claim theorems: orderbook -/

/-- C1: for every finite sequence of updates applied from the empty book,
the cached `best_bid` is `none` iff `bids` is empty, and when it is
`some l`, `l.price` is the maximum bid key and `l.qty` the quantity stored
there; symmetrically `best_ask` tracks the minimum ask key. The final state
of an arbitrary run covers the state after each `apply` of any run, since
every prefix of a run is itself a run. -/
theorem best_cache_consistent_after_run (us : List (Update × Nat)) :
    (Orderbook.init.applyRun us).1.CacheConsistent :=
  (Orderbook.applyRun_Inv Orderbook.init_Inv us).cacheConsistent

/-- C2: starting from a fresh book (`seq = 0`), the notifications of a run
of `n` applies carry `seq` values `1, 2, ..., n` (`List.range' 1 n`) with no
gaps or repeats; each `apply` increments `seq` by exactly one. -/
theorem notification_seqs_consecutive (inputs : List (Update × Nat)) :
    ((Orderbook.init.applyRun inputs).2.map BookNotification.seq)
      = List.range' 1 inputs.length :=
  Orderbook.applyRun_seqs Orderbook.init inputs

/-- C3: `apply` is total (it is a Lean function) and for every book state,
update, and `send_ns`, the returned notification carries the update's
timestamp, `send_ns` verbatim, the post-mutation cached bests, and the
incremented counter (which is also the post-state counter). -/
theorem apply_notification_fields (b : Orderbook) (u : Update) (s : Nat) :
    (b.apply u s).2.update_timestamp = u.timestamp ∧
    (b.apply u s).2.engine_send_ns = s ∧
    (b.apply u s).2.best_bid = (b.apply u s).1.cached_best_bid ∧
    (b.apply u s).2.best_ask = (b.apply u s).1.cached_best_ask ∧
    (b.apply u s).2.seq = b.seq + 1 ∧
    (b.apply u s).1.seq = b.seq + 1 :=
  ⟨rfl, rfl, rfl, rfl, Orderbook.apply_notif_seq b u s, Orderbook.apply_seq b u s⟩

/-- C6: applying the same snapshot twice in a row yields the same post-state
maps and caches as applying it once, with `seq` one higher, and the two
notifications agree on `update_timestamp`, `best_bid` and `best_ask`,
differing only in `seq` (one higher) and `engine_send_ns` (each pass-through). -/
theorem snapshot_idempotent (b : Orderbook) (ts : Nat) (bids asks : List Level)
    (s1 s2 : Nat) :
    (((b.apply (.snapshot ts bids asks) s1).1.apply (.snapshot ts bids asks) s2).1.bids
        = (b.apply (.snapshot ts bids asks) s1).1.bids) ∧
    (((b.apply (.snapshot ts bids asks) s1).1.apply (.snapshot ts bids asks) s2).1.asks
        = (b.apply (.snapshot ts bids asks) s1).1.asks) ∧
    (((b.apply (.snapshot ts bids asks) s1).1.apply (.snapshot ts bids asks) s2).1.cached_best_bid
        = (b.apply (.snapshot ts bids asks) s1).1.cached_best_bid) ∧
    (((b.apply (.snapshot ts bids asks) s1).1.apply (.snapshot ts bids asks) s2).1.cached_best_ask
        = (b.apply (.snapshot ts bids asks) s1).1.cached_best_ask) ∧
    (((b.apply (.snapshot ts bids asks) s1).1.apply (.snapshot ts bids asks) s2).1.seq
        = (b.apply (.snapshot ts bids asks) s1).1.seq + 1) ∧
    (((b.apply (.snapshot ts bids asks) s1).1.apply (.snapshot ts bids asks) s2).2.update_timestamp
        = (b.apply (.snapshot ts bids asks) s1).2.update_timestamp) ∧
    (((b.apply (.snapshot ts bids asks) s1).1.apply (.snapshot ts bids asks) s2).2.best_bid
        = (b.apply (.snapshot ts bids asks) s1).2.best_bid) ∧
    (((b.apply (.snapshot ts bids asks) s1).1.apply (.snapshot ts bids asks) s2).2.best_ask
        = (b.apply (.snapshot ts bids asks) s1).2.best_ask) ∧
    (((b.apply (.snapshot ts bids asks) s1).1.apply (.snapshot ts bids asks) s2).2.seq
        = (b.apply (.snapshot ts bids asks) s1).2.seq + 1) ∧
    (((b.apply (.snapshot ts bids asks) s1).1.apply (.snapshot ts bids asks) s2).2.engine_send_ns
        = s2) ∧
    ((b.apply (.snapshot ts bids asks) s1).2.engine_send_ns = s1) :=
  ⟨rfl, rfl, rfl, rfl,
   Orderbook.apply_seq _ _ s2, rfl, rfl, rfl,
   Orderbook.apply_notif_seq _ _ s2, rfl, rfl⟩

/-- C7: on any book satisfying cache consistency, an incremental with
zero quantity at a price absent from the targeted side's map changes
nothing but `seq`, which increments by one. -/
theorem incremental_delete_absent (b : Orderbook) (side : Side) (level : Level)
    (ts s : Nat) (hcc : b.CacheConsistent) (hz : level.qty.is_zero = true)
    (habs : level.price.raw ∉ keysOf (b.sideLevels side)) :
    (b.apply (.incremental ts side level) s).1 = { b with seq := b.seq + 1 } := by
  obtain ⟨hbn, hbs, han, has⟩ := hcc
  have hstep : (b.apply (.incremental ts side level) s).1
      = { b.apply_incremental side level with
          seq := (b.apply_incremental side level).seq + 1 } := rfl
  rw [hstep, Orderbook.apply_incremental_seq]
  cases side with
  | bid =>
    rw [apply_incremental_bid_zero hz,
        eraseEntry_of_not_mem (by exact habs)]
    rcases hE : b.cached_best_bid with _ | c
    · rfl
    · have hmem : c.price.raw ∈ keysOf b.bids :=
        mem_keys_of_lookupEntry (hbs c hE).1
      have hne : ¬ c.price = level.price := by
        intro h
        exact habs (h ▸ hmem)
      simp only [if_neg hne]
  | ask =>
    rw [apply_incremental_ask_zero hz,
        eraseEntry_of_not_mem (by exact habs)]
    rcases hE : b.cached_best_ask with _ | c
    · rfl
    · have hmem : c.price.raw ∈ keysOf b.asks :=
        mem_keys_of_lookupEntry (has c hE).1
      have hne : ¬ c.price = level.price := by
        intro h
        exact habs (h ▸ hmem)
      simp only [if_neg hne]

/-- Witness for C7 at a concrete input: the empty book, bid side, price 100,
quantity 0. -/
theorem incremental_delete_absent_witness :
    Orderbook.init.CacheConsistent ∧
    (Qty.mk 0).is_zero = true ∧
    (100 ∉ keysOf (Orderbook.init.sideLevels .bid)) ∧
    (Orderbook.init.apply (.incremental 5 .bid ⟨⟨100⟩, ⟨0⟩⟩) 7).1
      = { Orderbook.init with seq := Orderbook.init.seq + 1 } :=
  ⟨Orderbook.init_Inv.cacheConsistent,
   by simp only [Qty.is_zero, decide_eq_true_eq]; norm_num,
   by simp [keysOf, Orderbook.init, Orderbook.sideLevels],
   incremental_delete_absent Orderbook.init .bid ⟨⟨100⟩, ⟨0⟩⟩ 5 7
     Orderbook.init_Inv.cacheConsistent
     (by simp only [Qty.is_zero, decide_eq_true_eq]; norm_num)
     (by simp [keysOf, Orderbook.init, Orderbook.sideLevels])⟩

/-! ## SPSC ring lemmas -/

/-- The state of a ring of capacity `cap` after `xs.length ≤ cap` pushes of
`xs` from fresh followed by `j` pops: positions advanced, consumed slot
sequence numbers at `i + cap`, loaded slots at `i + 1`, untouched at `i`. -/
def SPSC.midState (T : Type) (cap : Nat) (xs : List T) (j : Nat) : SPSC T :=
  ⟨cap, xs.length, j,
   fun i => if i < j then i + cap else if i < xs.length then i + 1 else i,
   fun i => if i < j then none else xs[i]?⟩

theorem mask_mod (cap k pos : Nat) (hcap : cap = 2 ^ k) :
    pos &&& (cap - 1) = pos % cap := by
  subst hcap
  exact Nat.and_pow_two_sub_one_eq_mod pos k

theorem SPSC.eq_of_fields {T : Type} {q r : SPSC T}
    (h1 : q.cap = r.cap) (h2 : q.head = r.head) (h3 : q.tail = r.tail)
    (h4 : ∀ i, q.seqs i = r.seqs i) (h5 : ∀ i, q.store i = r.store i) : q = r := by
  cases q
  cases r
  rw [SPSC.mk.injEq]
  exact ⟨h1, h2, h3, funext h4, funext h5⟩

theorem SPSC.midState_nil (T : Type) (cap : Nat) :
    SPSC.midState T cap [] 0 = SPSC.mkInit T cap := by
  apply SPSC.eq_of_fields <;> intros <;> simp [SPSC.midState, SPSC.mkInit]

theorem SPSC.try_push_run {T : Type} (cap k : Nat) (hcap : cap = 2 ^ k)
    (ys : List T) (x : T) (hlen : ys.length < cap) :
    (SPSC.midState T cap ys 0).try_push x
      = (SPSC.midState T cap (ys ++ [x]) 0, true) := by
  have hidx : ys.length &&& (cap - 1) = ys.length := by
    rw [mask_mod cap k _ hcap, Nat.mod_eq_of_lt hlen]
  have hcond : (SPSC.midState T cap ys 0).seqs
      ((SPSC.midState T cap ys 0).head &&& ((SPSC.midState T cap ys 0).cap - 1))
      = (SPSC.midState T cap ys 0).head := by
    simp [SPSC.midState, hidx]
  unfold SPSC.try_push
  rw [if_pos hcond]
  refine congrArg (fun q => (q, true)) (SPSC.eq_of_fields rfl ?_ rfl ?_ ?_)
  · show ys.length + 1 = (ys ++ [x]).length
    simp
  · intro i
    show (if i = ys.length &&& (cap - 1) then ys.length + 1
          else (SPSC.midState T cap ys 0).seqs i)
        = (SPSC.midState T cap (ys ++ [x]) 0).seqs i
    simp only [SPSC.midState, hidx, List.length_append, List.length_cons,
      List.length_nil]
    split_ifs <;> omega
  · intro i
    show (if i = ys.length &&& (cap - 1) then some x
          else (SPSC.midState T cap ys 0).store i)
        = (SPSC.midState T cap (ys ++ [x]) 0).store i
    simp only [SPSC.midState, hidx, List.length_append, List.length_cons,
      List.length_nil, Nat.not_lt_zero, if_false]
    by_cases hi : i = ys.length
    · subst hi
      simp [List.getElem?_concat_length]
    · simp only [if_neg hi]
      by_cases hi2 : i < ys.length
      · exact (List.getElem?_append_left hi2).symm
      · rw [List.getElem?_eq_none (by omega),
            List.getElem?_eq_none (by simp; omega)]

theorem SPSC.pushList_run {T : Type} (cap k : Nat) (hcap : cap = 2 ^ k)
    (ys xs : List T) (hlen : ys.length + xs.length ≤ cap) :
    SPSC.pushList (SPSC.midState T cap ys 0) xs
      = (SPSC.midState T cap (ys ++ xs) 0, List.replicate xs.length true) := by
  induction xs generalizing ys with
  | nil => simp [SPSC.pushList]
  | cons x xs ih =>
    have hpos : ys.length < cap := by
      simp only [List.length_cons] at hlen
      omega
    have hstep := SPSC.try_push_run cap k hcap ys x hpos
    have hrec := ih (ys ++ [x]) (by simp at hlen ⊢; omega)
    show (let (q1, ok) := (SPSC.midState T cap ys 0).try_push x
          let (q2, oks) := q1.pushList xs
          (q2, ok :: oks))
      = (SPSC.midState T cap (ys ++ x :: xs) 0, List.replicate (xs.length + 1) true)
    rw [hstep]
    simp only [hrec, List.append_assoc, List.singleton_append, List.replicate_succ]

theorem SPSC.try_pop_run {T : Type} (cap k : Nat) (hcap : cap = 2 ^ k)
    (xs : List T) (hxs : xs.length ≤ cap) (j : Nat) (hj : j < xs.length) :
    (SPSC.midState T cap xs j).try_pop
      = (SPSC.midState T cap xs (j + 1), xs[j]?) := by
  have hjcap : j < cap := by omega
  have hidx : j &&& (cap - 1) = j := by
    rw [mask_mod cap k _ hcap, Nat.mod_eq_of_lt hjcap]
  have hcond : (SPSC.midState T cap xs j).seqs
      ((SPSC.midState T cap xs j).tail &&& ((SPSC.midState T cap xs j).cap - 1))
      = (SPSC.midState T cap xs j).tail + 1 := by
    simp only [SPSC.midState, hidx]
    rw [if_neg (by omega), if_pos hj]
  unfold SPSC.try_pop
  rw [if_pos hcond]
  have hval : (SPSC.midState T cap xs j).store
      ((SPSC.midState T cap xs j).tail &&& ((SPSC.midState T cap xs j).cap - 1))
      = xs[j]? := by
    simp only [SPSC.midState, hidx]
    rw [if_neg (by omega)]
  rw [hval]
  refine congrArg (fun q => (q, xs[j]?)) (SPSC.eq_of_fields rfl rfl rfl ?_ ?_)
  · intro i
    show (if i = (SPSC.midState T cap xs j).tail &&& ((SPSC.midState T cap xs j).cap - 1)
          then (SPSC.midState T cap xs j).tail + (SPSC.midState T cap xs j).cap
          else (SPSC.midState T cap xs j).seqs i)
        = (SPSC.midState T cap xs (j + 1)).seqs i
    simp only [SPSC.midState, hidx]
    split_ifs <;> omega
  · intro i
    show (if i = (SPSC.midState T cap xs j).tail &&& ((SPSC.midState T cap xs j).cap - 1)
          then none
          else (SPSC.midState T cap xs j).store i)
        = (SPSC.midState T cap xs (j + 1)).store i
    simp only [SPSC.midState, hidx]
    split_ifs <;> first | rfl | omega

theorem SPSC.popN_run {T : Type} (cap k : Nat) (hcap : cap = 2 ^ k)
    (xs : List T) (hxs : xs.length ≤ cap) (j n : Nat) (hjn : j + n ≤ xs.length) :
    SPSC.popN (SPSC.midState T cap xs j) n
      = (SPSC.midState T cap xs (j + n), ((xs.drop j).take n).map some) := by
  induction n generalizing j with
  | zero => simp [SPSC.popN]
  | succ n ih =>
    have hj : j < xs.length := by omega
    have hstep := SPSC.try_pop_run cap k hcap xs hxs j hj
    have hrec := ih (j + 1) (by omega)
    show (let (q1, o) := (SPSC.midState T cap xs j).try_pop
          let (q2, os) := q1.popN n
          (q2, o :: os))
      = (SPSC.midState T cap xs (j + (n + 1)), ((xs.drop j).take (n + 1)).map some)
    rw [hstep]
    simp only [hrec]
    have harith : j + 1 + n = j + (n + 1) := by omega
    rw [harith, List.drop_eq_getElem_cons hj, List.take_succ_cons, List.map_cons,
        List.getElem?_eq_getElem hj]

theorem SPSC.try_pop_empty {T : Type} (cap k : Nat) (hcap : cap = 2 ^ k)
    (xs : List T) (hxs : xs.length ≤ cap) :
    ((SPSC.midState T cap xs xs.length).try_pop).2 = none := by
  have hpow : 0 < cap := by
    subst hcap
    exact Nat.pos_pow_of_pos k (by omega)
  have hidx : xs.length &&& (cap - 1) = xs.length % cap := mask_mod cap k _ hcap
  unfold SPSC.try_pop
  rcases Nat.lt_or_ge xs.length cap with hlt | hge
  · have hne : ¬ (SPSC.midState T cap xs xs.length).seqs
        ((SPSC.midState T cap xs xs.length).tail
          &&& ((SPSC.midState T cap xs xs.length).cap - 1))
        = (SPSC.midState T cap xs xs.length).tail + 1 := by
      simp only [SPSC.midState, hidx, Nat.mod_eq_of_lt hlt]
      rw [if_neg (by omega), if_neg (by omega)]
      omega
    rw [if_neg hne]
  · have hcapeq : xs.length = cap := by omega
    have hidx0 : cap &&& (cap - 1) = 0 := by
      rw [mask_mod cap k _ hcap, Nat.mod_self]
    have hne : ¬ (SPSC.midState T cap xs xs.length).seqs
        ((SPSC.midState T cap xs xs.length).tail
          &&& ((SPSC.midState T cap xs xs.length).cap - 1))
        = (SPSC.midState T cap xs xs.length).tail + 1 := by
      simp only [SPSC.midState, hcapeq, hidx0]
      rw [if_pos hpow]
      omega
    rw [if_neg hne]

theorem SPSC.try_push_full {T : Type} (cap k : Nat) (hcap : cap = 2 ^ k)
    (h2 : 2 ≤ cap) (xs : List T) (hlen : xs.length = cap) (y : T) :
    ((SPSC.midState T cap xs 0).try_push y).2 = false := by
  have hidx0 : cap &&& (cap - 1) = 0 := by
    rw [mask_mod cap k _ hcap, Nat.mod_self]
  have hne : ¬ (SPSC.midState T cap xs 0).seqs
      ((SPSC.midState T cap xs 0).head &&& ((SPSC.midState T cap xs 0).cap - 1))
      = (SPSC.midState T cap xs 0).head := by
    simp only [SPSC.midState, hlen, hidx0]
    rw [if_neg (by omega), if_pos (by omega)]
    omega
  unfold SPSC.try_push
  rw [if_neg hne]

/-! ## Claim theorems: SPSC ring -/

/-- C4: on a fresh ring of power-of-two capacity, pushing any `xs` with
`xs.length ≤ Capacity` succeeds at every `try_push`, and `xs.length`
subsequent `try_pop` calls return exactly the pushed elements in push
order. -/
theorem ring_fifo (T : Type) (cap k : Nat) (hcap : cap = 2 ^ k)
    (xs : List T) (hlen : xs.length ≤ cap) :
    ((SPSC.mkInit T cap).pushList xs).2 = List.replicate xs.length true ∧
    (((SPSC.mkInit T cap).pushList xs).1.popN xs.length).2 = xs.map some := by
  have hpush := SPSC.pushList_run cap k hcap [] xs (by simpa using hlen)
  rw [SPSC.midState_nil] at hpush
  simp only [List.nil_append] at hpush
  constructor
  · rw [hpush]
  · rw [hpush]
    show ((SPSC.midState T cap xs 0).popN xs.length).2 = xs.map some
    rw [SPSC.popN_run cap k hcap xs hlen 0 xs.length (by omega)]
    simp

/-- Witness for C4: capacity 4, three pushed values. -/
theorem ring_fifo_witness :
    ((4 : Nat) = 2 ^ 2 ∧ ([10, 20, 30] : List Nat).length ≤ 4) ∧
    (((SPSC.mkInit Nat 4).pushList [10, 20, 30]).2
        = List.replicate ([10, 20, 30] : List Nat).length true ∧
     (((SPSC.mkInit Nat 4).pushList [10, 20, 30]).1.popN
        ([10, 20, 30] : List Nat).length).2 = ([10, 20, 30] : List Nat).map some) :=
  ⟨⟨by norm_num, by decide⟩,
   ring_fifo Nat 4 2 (by norm_num) [10, 20, 30] (by decide)⟩

/-- Two positions at most `cap - 1` apart with equal residues mod `cap`
are equal. -/
theorem eq_of_mod_eq_window {n a b : Nat} (hab : a ≤ b) (hlt : b < a + n)
    (h : a % n = b % n) : a = b := by
  have hdvd : n ∣ b - a := (Nat.modEq_iff_dvd' hab).mp h
  rcases Nat.eq_zero_or_pos (b - a) with h0 | hpos
  · omega
  · have := Nat.le_of_dvd hpos hdvd
    omega

/-- In a window of `cap` consecutive positions, residues mod `cap` are
injective. -/
theorem mod_eq_window_inj {n t a b : Nat} (ha1 : t ≤ a) (ha2 : a < t + n)
    (hb1 : t ≤ b) (hb2 : b < t + n) (h : a % n = b % n) : a = b := by
  rcases Nat.le_total a b with hle | hle
  · exact eq_of_mod_eq_window hle (by omega) h
  · exact (eq_of_mod_eq_window hle (by omega) h.symm).symm

/-- Ring states reachable from a fresh ring of capacity `cap` by any
sequence of `try_push` and `try_pop` calls (a failed call leaves the state
unchanged). -/
inductive SPSC.Reachable (T : Type) (cap : Nat) : SPSC T → Prop where
  | init : SPSC.Reachable T cap (SPSC.mkInit T cap)
  | push (q : SPSC T) (x : T) : SPSC.Reachable T cap q →
      SPSC.Reachable T cap (q.try_push x).1
  | pop (q : SPSC T) : SPSC.Reachable T cap q →
      SPSC.Reachable T cap (q.try_pop).1

/-- Invariant of reachable ring states: the consumer never passes the
producer, at most `cap` items are buffered, and over the window of `cap`
positions starting at `tail`, a slot's sequence number is `pos + 1` when
position `pos` is pushed but not yet popped (with a value present) and
`pos` otherwise. -/
def SPSC.RingInv {T : Type} (q : SPSC T) : Prop :=
  q.tail ≤ q.head ∧ q.head ≤ q.tail + q.cap ∧
  (∀ pos, q.tail ≤ pos → pos < q.tail + q.cap →
    q.seqs (pos % q.cap) = if pos < q.head then pos + 1 else pos) ∧
  (∀ pos, q.tail ≤ pos → pos < q.head → (q.store (pos % q.cap)).isSome = true)

theorem SPSC.try_push_cap {T : Type} (q : SPSC T) (x : T) :
    (q.try_push x).1.cap = q.cap := by
  simp only [SPSC.try_push]
  split <;> rfl

theorem SPSC.try_pop_cap {T : Type} (q : SPSC T) :
    (q.try_pop).1.cap = q.cap := by
  simp only [SPSC.try_pop]
  split <;> rfl

theorem SPSC.Reachable.cap_eq {T : Type} {cap : Nat} {q : SPSC T}
    (h : SPSC.Reachable T cap q) : q.cap = cap := by
  induction h with
  | init => rfl
  | push q x _ ih =>
    rw [SPSC.try_push_cap]
    exact ih
  | pop q _ ih =>
    rw [SPSC.try_pop_cap]
    exact ih

theorem SPSC.RingInv_init (T : Type) (cap : Nat) :
    SPSC.RingInv (SPSC.mkInit T cap) := by
  refine ⟨le_refl _, by simp [SPSC.mkInit], ?_, ?_⟩
  · intro pos h1 h2
    show pos % cap = if pos < 0 then pos + 1 else pos
    have hlt : pos < cap := by
      simpa [SPSC.mkInit] using h2
    rw [if_neg (by omega), Nat.mod_eq_of_lt hlt]
  · intro pos h1 h2
    exact absurd h2 (by simp [SPSC.mkInit])

theorem SPSC.try_push_RingInv {T : Type} {k : Nat} {q : SPSC T}
    (hcap : q.cap = 2 ^ k) (h2 : 2 ≤ q.cap) (hinv : SPSC.RingInv q) (x : T) :
    SPSC.RingInv (q.try_push x).1 := by
  obtain ⟨h1, hle, h3, h4⟩ := hinv
  have hmask : q.head &&& (q.cap - 1) = q.head % q.cap := mask_mod q.cap k q.head hcap
  simp only [SPSC.try_push, hmask]
  split
  case isTrue hcond =>
    have hnf : q.head < q.tail + q.cap := by
      by_contra hcontra
      have hfull : q.head = q.tail + q.cap := by omega
      have hts : q.seqs (q.tail % q.cap) = q.tail + 1 := by
        rw [h3 q.tail (le_refl _) (by omega), if_pos (by omega)]
      rw [hfull, Nat.add_mod_right, hts] at hcond
      omega
    show q.tail ≤ q.head + 1 ∧ q.head + 1 ≤ q.tail + q.cap ∧
      (∀ pos, q.tail ≤ pos → pos < q.tail + q.cap →
        (if pos % q.cap = q.head % q.cap then q.head + 1 else q.seqs (pos % q.cap))
          = if pos < q.head + 1 then pos + 1 else pos) ∧
      (∀ pos, q.tail ≤ pos → pos < q.head + 1 →
        ((if pos % q.cap = q.head % q.cap then some x
          else q.store (pos % q.cap)).isSome = true))
    refine ⟨by omega, by omega, ?_, ?_⟩
    · intro pos hp1 hp2
      by_cases hres : pos % q.cap = q.head % q.cap
      · have hpe : pos = q.head := mod_eq_window_inj hp1 hp2 h1 hnf hres
        subst hpe
        rw [if_pos rfl, if_pos (by omega)]
      · have hne : pos ≠ q.head := fun h => hres (by rw [h])
        rw [if_neg hres, h3 pos hp1 hp2]
        split_ifs <;> omega
    · intro pos hp1 hp2
      by_cases hres : pos % q.cap = q.head % q.cap
      · rw [if_pos hres]
        rfl
      · have hne : pos ≠ q.head := fun h => hres (by rw [h])
        rw [if_neg hres]
        exact h4 pos hp1 (by omega)
  case isFalse hcond =>
    exact ⟨h1, hle, h3, h4⟩

theorem SPSC.try_pop_RingInv {T : Type} {k : Nat} {q : SPSC T}
    (hcap : q.cap = 2 ^ k) (h2 : 2 ≤ q.cap) (hinv : SPSC.RingInv q) :
    SPSC.RingInv (q.try_pop).1 := by
  obtain ⟨h1, hle, h3, h4⟩ := hinv
  have hmask : q.tail &&& (q.cap - 1) = q.tail % q.cap := mask_mod q.cap k q.tail hcap
  have hts := h3 q.tail (le_refl _) (by omega)
  simp only [SPSC.try_pop, hmask]
  split
  case isTrue hcond =>
    have hlt : q.tail < q.head := by
      by_contra hcontra
      rw [hts, if_neg (by omega)] at hcond
      omega
    show q.tail + 1 ≤ q.head ∧ q.head ≤ q.tail + 1 + q.cap ∧
      (∀ pos, q.tail + 1 ≤ pos → pos < q.tail + 1 + q.cap →
        (if pos % q.cap = q.tail % q.cap then q.tail + q.cap else q.seqs (pos % q.cap))
          = if pos < q.head then pos + 1 else pos) ∧
      (∀ pos, q.tail + 1 ≤ pos → pos < q.head →
        ((if pos % q.cap = q.tail % q.cap then none
          else q.store (pos % q.cap)).isSome = true))
    refine ⟨by omega, by omega, ?_, ?_⟩
    · intro pos hp1 hp2
      by_cases hres : pos % q.cap = q.tail % q.cap
      · have hpe : pos = q.tail + q.cap := by
          apply mod_eq_window_inj (n := q.cap) (t := q.tail + 1) hp1 hp2
            (by omega) (by omega)
          rw [Nat.add_mod_right]
          exact hres
        subst hpe
        rw [if_pos (by rw [Nat.add_mod_right]), if_neg (by omega)]
      · have hne : pos ≠ q.tail + q.cap := fun h => hres (by rw [h, Nat.add_mod_right])
        rw [if_neg hres, h3 pos (by omega) (by omega)]
    · intro pos hp1 hp2
      by_cases hres : pos % q.cap = q.tail % q.cap
      · have hpe : pos = q.tail + q.cap := by
          apply mod_eq_window_inj (n := q.cap) (t := q.tail + 1) hp1
            (by omega) (by omega) (by omega)
          rw [Nat.add_mod_right]
          exact hres
        exact absurd hp2 (by omega)
      · rw [if_neg hres]
        exact h4 pos (by omega) (by omega)
  case isFalse hcond =>
    exact ⟨h1, hle, h3, h4⟩

theorem SPSC.Reachable.ringInv {T : Type} {cap k : Nat} (hcap : cap = 2 ^ k)
    (h2 : 2 ≤ cap) {q : SPSC T} (h : SPSC.Reachable T cap q) :
    SPSC.RingInv q := by
  induction h with
  | init => exact SPSC.RingInv_init T cap
  | push q x hq ih =>
    exact SPSC.try_push_RingInv (hq.cap_eq.trans hcap) (by rw [hq.cap_eq]; exact h2) ih x
  | pop q hq ih =>
    exact SPSC.try_pop_RingInv (hq.cap_eq.trans hcap) (by rw [hq.cap_eq]; exact h2) ih

theorem SPSC.try_push_false_iff {T : Type} {k : Nat} {q : SPSC T}
    (hcap : q.cap = 2 ^ k) (h2 : 2 ≤ q.cap) (hinv : SPSC.RingInv q) (x : T) :
    (q.try_push x).2 = false ↔ q.head = q.tail + q.cap := by
  obtain ⟨h1, hle, h3, h4⟩ := hinv
  have hmask : q.head &&& (q.cap - 1) = q.head % q.cap := mask_mod q.cap k q.head hcap
  simp only [SPSC.try_push, hmask]
  split
  case isTrue hcond =>
    have hnf : q.head < q.tail + q.cap := by
      by_contra hcontra
      have hfull : q.head = q.tail + q.cap := by omega
      have hts : q.seqs (q.tail % q.cap) = q.tail + 1 := by
        rw [h3 q.tail (le_refl _) (by omega), if_pos (by omega)]
      rw [hfull, Nat.add_mod_right, hts] at hcond
      omega
    constructor
    · intro hfalse
      exact absurd hfalse (by simp)
    · intro hfull
      exact absurd hfull (by omega)
  case isFalse hcond =>
    constructor
    · intro _
      by_contra hcontra
      have hnf : q.head < q.tail + q.cap := by omega
      exact hcond (by rw [h3 q.head h1 hnf, if_neg (by omega)])
    · intro _
      rfl

theorem SPSC.try_pop_none_iff {T : Type} {k : Nat} {q : SPSC T}
    (hcap : q.cap = 2 ^ k) (h2 : 2 ≤ q.cap) (hinv : SPSC.RingInv q) :
    (q.try_pop).2 = none ↔ q.head = q.tail := by
  obtain ⟨h1, hle, h3, h4⟩ := hinv
  have hmask : q.tail &&& (q.cap - 1) = q.tail % q.cap := mask_mod q.cap k q.tail hcap
  have hts := h3 q.tail (le_refl _) (by omega)
  simp only [SPSC.try_pop, hmask]
  split
  case isTrue hcond =>
    have hlt : q.tail < q.head := by
      by_contra hcontra
      rw [hts, if_neg (by omega)] at hcond
      omega
    have hsome := h4 q.tail (le_refl _) hlt
    constructor
    · intro hnone
      have h5 : q.store (q.tail % q.cap) = none := hnone
      rw [h5] at hsome
      simp at hsome
    · intro hempty
      exact absurd hempty (by omega)
  case isFalse hcond =>
    constructor
    · intro _
      by_contra hcontra
      have hlt : q.tail < q.head := by omega
      exact hcond (by rw [hts, if_pos hlt])
    · intro _
      rfl

/-- C5 (amended): on an SPSC ring whose power-of-two capacity is at least
2, each of the first `Capacity` consecutive `try_push` calls on a fresh
ring succeeds and the `Capacity + 1`-th `try_push` (with no intervening
pop) fails; moreover on every reachable ring state, `try_push` fails
exactly when the ring is full (`head = tail + Capacity`) and `try_pop`
fails exactly when it is empty (`head = tail`) — neither fails for any
other reason. -/
theorem ring_fullness (T : Type) (cap k : Nat) (hcap : cap = 2 ^ k)
    (h2 : 2 ≤ cap) (xs : List T) (hlen : xs.length = cap) (y : T) :
    ((SPSC.mkInit T cap).pushList xs).2 = List.replicate cap true ∧
    (((SPSC.mkInit T cap).pushList xs).1.try_push y).2 = false ∧
    (∀ q : SPSC T, SPSC.Reachable T cap q → ∀ x : T,
      ((q.try_push x).2 = false ↔ q.head = q.tail + cap) ∧
      ((q.try_pop).2 = none ↔ q.head = q.tail)) := by
  have hpush := SPSC.pushList_run cap k hcap [] xs (by simp [hlen])
  rw [SPSC.midState_nil] at hpush
  simp only [List.nil_append] at hpush
  refine ⟨by rw [hpush, hlen], ?_, ?_⟩
  · rw [hpush]
    show ((SPSC.midState T cap xs 0).try_push y).2 = false
    exact SPSC.try_push_full cap k hcap h2 xs hlen y
  · intro q hq x
    have hinv := SPSC.Reachable.ringInv hcap h2 hq
    have hqcap : q.cap = 2 ^ k := hq.cap_eq.trans hcap
    have hq2 : 2 ≤ q.cap := by rw [hq.cap_eq]; exact h2
    constructor
    · rw [SPSC.try_push_false_iff hqcap hq2 hinv x, hq.cap_eq]
    · exact SPSC.try_pop_none_iff hqcap hq2 hinv

/-- Witness for C5's amended statement: capacity 4. -/
theorem ring_fullness_witness :
    ((4 : Nat) = 2 ^ 2 ∧ (2 : Nat) ≤ 4 ∧ ([1, 2, 3, 4] : List Nat).length = 4) ∧
    (((SPSC.mkInit Nat 4).pushList [1, 2, 3, 4]).2 = List.replicate 4 true ∧
     (((SPSC.mkInit Nat 4).pushList [1, 2, 3, 4]).1.try_push 9).2 = false ∧
     (∀ q : SPSC Nat, SPSC.Reachable Nat 4 q → ∀ x : Nat,
       ((q.try_push x).2 = false ↔ q.head = q.tail + 4) ∧
       ((q.try_pop).2 = none ↔ q.head = q.tail))) :=
  ⟨⟨by norm_num, by norm_num, by decide⟩,
   ring_fullness Nat 4 2 (by norm_num) (by norm_num) [1, 2, 3, 4] (by decide) 9⟩

/-- Counterexample to C5 as stated: at `Capacity = 1` (a power of two the
code's `static_assert` accepts) the second `try_push`, with no intervening
pop, succeeds instead of failing: the slot's sequence number `1` equals the
producer position `1` after wraparound, so the full ring is mistaken for an
available slot. -/
theorem ring_fullness_cex :
    ((SPSC.mkInit Nat 1).try_push 7).2 = true ∧
    (((SPSC.mkInit Nat 1).try_push 7).1.try_push 8).2 = true :=
  ⟨rfl, rfl⟩

/-! ## Claim theorems: parser and stats -/

/-- Counterexample to C8 as stated: the incremental line `"i,x"` has only
two comma-separated fields (fewer than 9), yet `parse_incremental` performs
no field-count check and unconditionally pushes the update it built, so the
line contributes one `Update` instead of none. -/
theorem malformed_incremental_not_skipped :
    parseLineEmits ['i', ',', 'x'] = 1 := rfl

/-- C8 (amended): the ingest adapter skips every line that does not start
with `s` or `i` (including empty lines) and every snapshot line with fewer
than 7 quote-aware comma-separated fields; an incremental line (first
character `i`) always contributes exactly one `Update`, with no field-count
check. -/
theorem malformed_line_skipping (line : List Char) :
    (∀ c, line.head? = some c → c ≠ 's' → c ≠ 'i' → parseLineEmits line = 0) ∧
    (line.head? = some 's' → (splitFieldsQuoted line).length < 7 →
      parseLineEmits line = 0) ∧
    (line.head? = some 's' → ¬ (splitFieldsQuoted line).length < 7 →
      parseLineEmits line = 1) ∧
    (line.head? = some 'i' → parseLineEmits line = 1) ∧
    (line = [] → parseLineEmits line = 0) := by
  cases line with
  | nil => simp [parseLineEmits]
  | cons c rest =>
    refine ⟨?_, ?_, ?_, ?_, ?_⟩
    · intro c1 hc1 hs hi
      simp only [List.head?_cons, Option.some.injEq] at hc1
      subst hc1
      simp [parseLineEmits, if_neg hs, if_neg hi]
    · intro hc hlt
      simp only [List.head?_cons, Option.some.injEq] at hc
      subst hc
      simp [parseLineEmits, if_pos hlt]
    · intro hc hge
      simp only [List.head?_cons, Option.some.injEq] at hc
      subst hc
      simp [parseLineEmits, if_neg hge]
    · intro hc
      simp only [List.head?_cons, Option.some.injEq] at hc
      subst hc
      simp [parseLineEmits]
    · intro h
      simp at h

/-- Witness for C8's amended statement: a line starting with `x` is
skipped, a short snapshot line is skipped, and a short incremental line is
still pushed. -/
theorem malformed_line_skipping_witness :
    (['x', '1'].head? = some 'x' ∧ parseLineEmits ['x', '1'] = 0) ∧
    (['s', ','].head? = some 's' ∧ (splitFieldsQuoted ['s', ',']).length < 7 ∧
      parseLineEmits ['s', ','] = 0) ∧
    (['i'].head? = some 'i' ∧ parseLineEmits ['i'] = 1) :=
  ⟨⟨rfl, (malformed_line_skipping ['x', '1']).1 'x' rfl (by decide) (by decide)⟩,
   ⟨rfl, by decide, (malformed_line_skipping ['s', ',']).2.1 rfl (by decide)⟩,
   ⟨rfl, (malformed_line_skipping ['i']).2.2.2.1 rfl⟩⟩

/-- C10: with no recorded samples (`count = 0`, empty sample vector),
`avg_ns`, `median`, and `percentile p` for any `p` all return 0 instead of
dividing by zero or indexing an empty vector. -/
theorem stats_empty_zero (s : StrategyStats) (p : ℚ)
    (hc : s.count = 0) (hl : s.latencies = []) :
    s.avg_ns = 0 ∧ s.median = 0 ∧ s.percentile p = 0 := by
  refine ⟨?_, ?_, ?_⟩
  · simp [StrategyStats.avg_ns, hc]
  · simp [StrategyStats.median, StrategyStats.percentile, hl]
  · simp [StrategyStats.percentile, hl]

/-- Witness for C10: a freshly constructed `StrategyStats` at `p = 95`. -/
theorem stats_empty_zero_witness :
    StrategyStats.mkInit.count = 0 ∧ StrategyStats.mkInit.latencies = [] ∧
    (StrategyStats.mkInit.avg_ns = 0 ∧ StrategyStats.mkInit.median = 0 ∧
     StrategyStats.mkInit.percentile 95 = 0) :=
  ⟨rfl, rfl, stats_empty_zero StrategyStats.mkInit 95 rfl rfl⟩
